import Mathlib

/-
Verification of the hierarchical inclusive-scan engine of ndzip
(src/src/ndzip/sycl_bits.hh).

The SYCL kernels are data-parallel loops over disjoint blocks with barrier
synchronisation between phases, so each kernel is embedded as a pure function
on lists: a device buffer is a `List α`, one work-group's block is one chunk
of `granularity` (resp. `warp_size`) contiguous elements, and the hardware
warp-level `sycl::inclusive_scan_over_group` primitive is the sequential
inclusive scan of the warp's lane values in lane order.  `index_type`
(`uint32_t`) quantities are embedded as `Nat`.  Recursions whose termination
depends on `warp_size ≥ 2` (resp. `granularity ≥ 2`) are written with an
explicit fuel argument; fuel-irrelevance is proved below.

`div_ceil` / `ceil` and the constants `warp_size` /
`hierarchical_inclusive_scan_granularity` live in gpu_common.hh, which is not
part of the examined sources; the two helpers are modelled from the spec and
the constants are kept as parameters `w` and `G`.
-/

namespace NdzipSycl

variable {α : Type} {γ ε : Type}

/-- Modelled from the spec: `div_ceil(a, b) = ⌈a/b⌉`, the integer ceiling
division from gpu_common.hh (not under src/); the spec writes it as
`ceil(N/G)` — "each level's element count = ceil(previous level's element
count / granularity)". -/
def div_ceil (a b : Nat) : Nat := (a + b - 1) / b

/-- Modelled from the spec: `ceil(a, b)` rounds `a` up to the next multiple of
`b` (gpu_common.hh, not under src/); the spec writes it as "rounded up to a
multiple of granularity". -/
def ceil (a b : Nat) : Nat := div_ceil a b * b

/-- Accumulator form of the naive sequential inclusive scan:
`seqScanAux op a xs` lists `op(a,x0), op(op(a,x0),x1), ...`. -/
def seqScanAux (op : α → α → α) : α → List α → List α
  | _, [] => []
  | a, x :: xs => op a x :: seqScanAux op (op a x) xs

/-- The naive sequential inclusive scan of the spec: entry `i` is
`op(input 0, ..., input i)`, associated to the left. -/
def seqScan (op : α → α → α) : List α → List α
  | [] => []
  | x :: xs => x :: seqScanAux op x xs

/-- Total of one block under `op` (the value the scan leaves in the block's
last slot); `z` is returned for an empty block, which never occurs in the
pipeline. -/
def blockTotal (op : α → α → α) (z : α) : List α → α
  | [] => z
  | x :: xs => xs.foldl op x

/-- Fuel-driven splitting of a buffer into contiguous blocks of `w` elements
(the per-work-group blocks); any fuel `≥ xs.length` is enough when `w ≥ 1`. -/
def chunksFuel (w : Nat) : Nat → List α → List (List α)
  | 0, _ => []
  | _ + 1, [] => []
  | f + 1, x :: xs => (x :: xs).take w :: chunksFuel w f ((x :: xs).drop w)

/-- Split a buffer into contiguous blocks of `w` elements. -/
def chunksW (w : Nat) (xs : List α) : List (List α) := chunksFuel w xs.length xs

/-- Carry application step shared by the scan fix-up loop (sycl_bits.hh
lines 178-182) and the expansion kernel (lines 254-259): block number `k`
(`k = item / warp_size` resp. the work-group's block index) is combined
element-wise with `carries[k - 1]`, in the code's operand order
`op(value, carry)`; block 0 is skipped — `if (item >= warp_size)` resp.
launching only `size/G - 1` groups shifted by one block. -/
def applyCarries (op : α → α → α) (z : α) (carries : List α) :
    Nat → List (List α) → List (List α)
  | _, [] => []
  | k, c :: rest =>
      (if k = 0 then c else c.map fun v => op v (carries.getD (k - 1) z)) ::
        applyCarries op z carries (k + 1) rest

/-- Fuel version of `inclusive_scan_over_group` (sycl_bits.hh lines 151-183).
Base case (`Range ≤ warp_size`): the range is padded up to a full warp with
the scalar literal `0` (modelled by `z`), warp-scanned, and the in-range lanes
write back — `(seqScan (xs ++ pad)).take Range`.  Recursive case: the padded
range is cut into warp-sized chunks; each chunk's warp scan is the "fine"
value, the last lane of each warp deposits its chunk total
(`fine` at lane `warp_size - 1`) into `coarse`, `coarse` is scanned
recursively through the next scratch level, and the fix-up pass combines
`op(fine, coarse[item / warp_size - 1])` for every item at or beyond one warp.
Fuel `≥ xs.length` is enough when `w ≥ 2`. -/
def inclusive_scan_over_group_fuel (op : α → α → α) (z : α) (w : Nat) :
    Nat → List α → List α
  | 0, xs => xs
  | fuel + 1, xs =>
    if xs.length ≤ w then
      (seqScan op (xs ++ List.replicate (w - xs.length) z)).take xs.length
    else
      let cks := chunksW w (xs ++ List.replicate (div_ceil xs.length w * w - xs.length) z)
      let coarse := cks.map fun c => (seqScan op c).getD (w - 1) z
      let scanned := inclusive_scan_over_group_fuel op z w fuel coarse
      ((applyCarries op z scanned 0 (cks.map (seqScan op))).flatten).take xs.length

/-- `inclusive_scan_over_group` over an accessor holding exactly `Range`
elements (`Range = xs.length`); `w` is the hardware `warp_size`. -/
def inclusive_scan_over_group (op : α → α → α) (z : α) (w : Nat) (xs : List α) : List α :=
  inclusive_scan_over_group_fuel op z w xs.length xs

/-- Fuel version of the buffer-chain construction loop of
`hierarchical_inclusive_scan_allocate` (sycl_bits.hh lines 192-196):
`while (n_elems > 1) { n_elems = div_ceil(n_elems, granularity);`
`intermediate_bufs.emplace_back(ceil(n_elems, granularity)); }`.
Fuel `≥ n` is enough when `G ≥ 2`. -/
def allocFuel (G : Nat) : Nat → Nat → List Nat
  | 0, _ => []
  | f + 1, n => if 1 < n then ceil (div_ceil n G) G :: allocFuel G f (div_ceil n G) else []

/-- Element counts of the intermediate buffers returned by
`hierarchical_inclusive_scan_allocate` for an in/out buffer of `n` elements
(`G` is `hierarchical_inclusive_scan_granularity`). -/
def hierarchical_inclusive_scan_allocate (G n : Nat) : List Nat := allocFuel G n n

/-- One reduction kernel launch (sycl_bits.hh lines 223-237): `size/G` groups;
group `g` scans the block `big[g*G .. g*G+G-1]` in place with
`inclusive_scan_over_group` and copies the scanned block's last element
`big[g*G + granularity - 1]` to `small[g]`; `small` entries at or beyond the
group count keep their previous (`discard_write` garbage) content.  `big` is
assumed block-aligned (`G ∣ big.length`), which the allocator guarantees. -/
def reduceKernel (G w : Nat) (op : α → α → α) (z : α) (big small : List α) :
    List α × List α :=
  let scannedBlocks := (chunksW G big).map (inclusive_scan_over_group op z w)
  (scannedBlocks.flatten,
    scannedBlocks.map (fun c => c.getD (G - 1) z) ++ small.drop (big.length / G))

/-- One expansion kernel launch (sycl_bits.hh lines 250-260): `size/G - 1`
groups; group `g` works on the block shifted by one
(`big = &big_acc[(group_index + 1) * granularity]`), reads the carry
`small[group_index]` and stores `op(big[i], carry)` for every `i < G` — i.e.
block `k ≥ 1` is combined with `small[k - 1]` and block 0 is untouched, which
is exactly `applyCarries` started at block number 0. -/
def expandKernel (G : Nat) (op : α → α → α) (z : α) (big small : List α) : List α :=
  (applyCarries op z small 0 (chunksW G big)).flatten

/-- Reduction loop of `hierarchical_inclusive_scan` (sycl_bits.hh lines
215-238): level `i` scans `big = intermediate_bufs[i-1]` (the in/out buffer at
level 0) and writes the block totals into `small = intermediate_bufs[i]`; the
freshly written `small` is the next level's `big`. -/
def reducePhase (G w : Nat) (op : α → α → α) (z : α) :
    List α → List (List α) → List α × List (List α)
  | big, [] => (big, [])
  | big, s :: rest =>
    let rk := reduceKernel G w op z big s
    let rp := reducePhase G w op z rk.2 rest
    (rk.1, rp.1 :: rp.2)

/-- Expansion loop of `hierarchical_inclusive_scan` (sycl_bits.hh lines
240-261): levels run downwards (`ii = size - 1 - i` for `i = 1 .. size-1`), so
each buffer is expanded with carries from the next-smaller buffer after that
buffer has itself been fully expanded; the deepest buffer is never expanded
(the loop starts at `i = 1`), and with a single intermediate buffer no
expansion kernel runs at all. -/
def expandPhase (G : Nat) (op : α → α → α) (z : α) :
    List α → List (List α) → List α × List (List α)
  | big, [] => (big, [])
  | big, [s] => (big, [s])
  | big, s :: s2 :: rest =>
    let ep := expandPhase G op z s (s2 :: rest)
    (expandKernel G op z big ep.1, ep.1 :: ep.2)

/-- `hierarchical_inclusive_scan` (sycl_bits.hh lines 207-262) on an in/out
buffer and the intermediate-buffer chain (whose initial contents are
arbitrary, the buffers being written `discard_write` before any read):
reduction levels ascending, then expansion levels descending; returns the
final in/out buffer contents. -/
def hierarchical_inclusive_scan (G w : Nat) (op : α → α → α) (z : α)
    (inOut : List α) (bufs : List (List α)) : List α :=
  let rp := reducePhase G w op z inOut bufs
  (expandPhase G op z rp.1 rp.2).1

/-- Logical items executed by lane `t` in `known_size_group::distribute_for`
(sycl_bits.hh lines 68-95 and 112-123): `range / LocalSize` full iterations
with `item = iteration * LocalSize + tid`, then the partial iteration executed
only by lanes `tid < range % LocalSize`. -/
def distribute_for_items (localSize range t : Nat) : List Nat :=
  (List.range (range / localSize)).map (fun iteration => iteration * localSize + t) ++
    (if t < range % localSize then [range / localSize * localSize + t] else [])

/-- Fuel version of the scratch shape of `inclusive_scan_local_allocation`
(sycl_bits.hh lines 140-148), as the list of per-level array sizes: empty for
`Range ≤ warp_size`, else `div_ceil(Range, warp_size)` elements plus the
nested structure for that reduced size.  Fuel `≥ range` is enough when
`w ≥ 2`. -/
def inclusive_scan_local_allocation_fuel (w : Nat) : Nat → Nat → List Nat
  | 0, _ => []
  | f + 1, range =>
      if range ≤ w then []
      else div_ceil range w :: inclusive_scan_local_allocation_fuel w f (div_ceil range w)

/-- Per-level array sizes of `inclusive_scan_local_allocation<Value, Range>`
for warp size `w`. -/
def inclusive_scan_local_allocation (w range : Nat) : List Nat :=
  inclusive_scan_local_allocation_fuel w range range

/-- Element counts of every buffer touched by `hierarchical_inclusive_scan`:
the in/out buffer followed by the intermediate chain. -/
def scan_level_sizes (G n : Nat) : List Nat := n :: hierarchical_inclusive_scan_allocate G n

/-- Written from the spec's words, for comparison with the code's allocator:
the "unrounded count" of level `k` — `ceil(N/G)` at level 0, then
`ceil(previous/G)`. -/
def specUnroundedCount (G n : Nat) : Nat → Nat
  | 0 => div_ceil n G
  | k + 1 => div_ceil (specUnroundedCount G n k) G

/-- Running prefix totals, used to state carry correctness: entry `k` of
`runFolds op a cks` is the fold of blocks `0..k-1` of `cks` on top of `a`
(the carry owed to block `k`). -/
def runFolds (op : α → α → α) : α → List (List α) → List α
  | _, [] => []
  | a, c :: rest => a :: runFolds op (c.foldl op a) rest

/-- `UINT64_MAX`, the fold seed of `earliest_event_start`. -/
def UINT64_MAX : Nat := 2 ^ 64 - 1

/-- `earliest_event_start` over a vector of events (sycl_bits.hh lines 19-25);
an event is embedded as its `(command_start, command_end)` timestamp pair. -/
def earliest_event_start (events : List (Nat × Nat)) : Nat :=
  events.foldl (fun start e => min start e.1) UINT64_MAX

/-- `latest_event_end` over a vector of events (sycl_bits.hh lines 31-37). -/
def latest_event_end (events : List (Nat × Nat)) : Nat :=
  events.foldl (fun e evt => max e evt.2) 0

/-- The `uint64_t` subtraction `late - early` forming the `kernel_duration`
(sycl_bits.hh line 43), wrapping modulo `2^64`. -/
def kernel_duration (early late : Nat) : Nat := (2 ^ 64 + late - early) % 2 ^ 64

/-- `measure_duration` applied to a single vector of events (sycl_bits.hh
lines 39-44): the min/max over the one argument collapse to the vector's own
fold results. -/
def measure_duration (events : List (Nat × Nat)) : Nat × Nat × Nat :=
  (earliest_event_start events, latest_event_end events,
    kernel_duration (earliest_event_start events) (latest_event_end events))

/-- Observable state of the queue wrapped by `submit_and_profile`: the
verbosity flag (`verbose()`), whether the queue was created with
`enable_profiling`, the effect of `q.submit`, the work units submitted so far
and the number of `printf` diagnostic lines emitted so far. -/
structure ProfiledQueue (γ ε : Type) where
  verbose : Bool
  profiling : Bool
  submitFn : γ → ε
  submitted : List γ
  diagnosticLines : Nat

/-- `submit_and_profile` (sycl_bits.hh lines 46-56): in either branch the
command-group function is submitted exactly once and the resulting event is
returned; one diagnostic line is printed only when `verbose()` and the queue
has profiling support.  `label : Nat` stands for the label string, which only
feeds the printout. -/
def submit_and_profile (q : ProfiledQueue γ ε) (_label : Nat) (cgf : γ) :
    ε × ProfiledQueue γ ε :=
  if q.verbose && q.profiling then
    (q.submitFn cgf,
      { q with submitted := q.submitted ++ [cgf], diagnosticLines := q.diagnosticLines + 1 })
  else
    (q.submitFn cgf, { q with submitted := q.submitted ++ [cgf] })

/-- A sequence of `submit_and_profile` calls, one per work unit. -/
def submit_all (q : ProfiledQueue γ ε) (ws : List γ) : ProfiledQueue γ ε :=
  ws.foldl (fun q' cgf => (submit_and_profile q' 0 cgf).2) q

/-! Arithmetic facts about `div_ceil` and `ceil`. -/

theorem div_ceil_eq_div {G n : Nat} (hG : 0 < G) (h : G ∣ n) : div_ceil n G = n / G := by
  obtain ⟨k, rfl⟩ := h
  unfold div_ceil
  have h1 : G * k + G - 1 = (G - 1) + G * k := by omega
  rw [h1, Nat.add_mul_div_left _ _ hG, Nat.div_eq_of_lt (by omega),
    Nat.mul_div_cancel_left _ hG]
  omega

theorem div_ceil_mul {w : Nat} (hw : 0 < w) (d : Nat) : div_ceil (d * w) w = d := by
  unfold div_ceil
  have h1 : d * w + w - 1 = (w - 1) + w * d := by rw [Nat.mul_comm w d]; omega
  rw [h1, Nat.add_mul_div_left _ _ hw, Nat.div_eq_of_lt (by omega)]
  omega

theorem div_ceil_pos {w n : Nat} (hw : 0 < w) (hn : 0 < n) : 0 < div_ceil n w := by
  unfold div_ceil
  show 1 ≤ _
  rw [Nat.le_div_iff_mul_le hw]
  omega

theorem div_ceil_lt' {G n : Nat} (hG : 2 ≤ G) (hn : 2 ≤ n) : div_ceil n G < n := by
  unfold div_ceil
  rw [Nat.div_lt_iff_lt_mul (by omega)]
  have h1 : 2 * G ≤ n * G := Nat.mul_le_mul_right G (by omega)
  have h2 : n * 2 ≤ n * G := Nat.mul_le_mul_left n hG
  omega

theorem le_ceil {w : Nat} (hw : 0 < w) (n : Nat) : n ≤ ceil n w := by
  cases n with
  | zero => exact Nat.zero_le _
  | succ m =>
    unfold ceil div_ceil
    have h1 : m + 1 + w - 1 = m + w := by omega
    rw [h1, Nat.add_div_right _ hw, Nat.succ_mul]
    have h2 : w * (m / w) + m % w = m := Nat.div_add_mod m w
    have h3 : m % w < w := Nat.mod_lt _ hw
    have h4 : w * (m / w) = m / w * w := Nat.mul_comm _ _
    omega

theorem div_ceil_ceil {w n : Nat} (hw : 0 < w) : div_ceil (ceil n w) w = div_ceil n w :=
  div_ceil_mul hw _

theorem ceil_div {w n : Nat} (hw : 0 < w) : ceil n w / w = div_ceil n w :=
  Nat.mul_div_cancel _ hw

theorem dvd_ceil (n w : Nat) : w ∣ ceil n w :=
  ⟨div_ceil n w, Nat.mul_comm _ _⟩

theorem div_ceil_pred {w n : Nat} (hw : 0 < w) (hn : 0 < n) :
    div_ceil n w = (n - 1) / w + 1 := by
  unfold div_ceil
  have h1 : n + w - 1 = (n - 1) + w := by omega
  rw [h1, Nat.add_div_right _ hw]

theorem div_ceil_shift {w n : Nat} (hw : 0 < w) (hn : 0 < n) :
    div_ceil n w = div_ceil (n - w) w + 1 := by
  by_cases hnw : n ≤ w
  · have h0 : n - w = 0 := by omega
    rw [h0, div_ceil_pred hw hn, Nat.div_eq_of_lt (by omega)]
    unfold div_ceil
    rw [Nat.div_eq_of_lt (by omega)]
  · rw [div_ceil_pred hw hn, div_ceil_pred hw (by omega)]
    have h1 : n - 1 = (n - w - 1) + w := by omega
    rw [h1, Nat.add_div_right _ hw]

/-! Facts about the naive sequential scan. -/

theorem seqScanAux_length (op : α → α → α) :
    ∀ (a : α) (xs : List α), (seqScanAux op a xs).length = xs.length
  | _, [] => rfl
  | a, x :: xs => by simp [seqScanAux, seqScanAux_length op (op a x) xs]

theorem seqScan_length (op : α → α → α) (xs : List α) : (seqScan op xs).length = xs.length := by
  cases xs with
  | nil => rfl
  | cons x t => simp [seqScan, seqScanAux_length]

theorem seqScanAux_append (op : α → α → α) :
    ∀ (xs : List α) (a : α) (ys : List α),
      seqScanAux op a (xs ++ ys) = seqScanAux op a xs ++ seqScanAux op (xs.foldl op a) ys
  | [], _, _ => rfl
  | x :: xs, a, ys => by simp [seqScanAux, seqScanAux_append op xs (op a x) ys]

theorem seqScan_append (op : α → α → α) (z : α) (xs ys : List α) (h : xs ≠ []) :
    seqScan op (xs ++ ys) = seqScan op xs ++ seqScanAux op (blockTotal op z xs) ys := by
  cases xs with
  | nil => exact absurd rfl h
  | cons x t => simp [seqScan, blockTotal, seqScanAux_append]

theorem seqScan_take (op : α → α → α) (xs ys : List α) :
    (seqScan op (xs ++ ys)).take xs.length = seqScan op xs := by
  cases xs with
  | nil => simp [seqScan]
  | cons x t =>
    rw [seqScan_append op x _ ys (by simp)]
    have hl : (x :: t).length = (seqScan op (x :: t)).length := (seqScan_length op _).symm
    rw [hl, List.take_left]

theorem seqScanAux_op_map (op : α → α → α)
    (hassoc : ∀ a b c, op (op a b) c = op a (op b c)) :
    ∀ (xs : List α) (a b : α),
      seqScanAux op (op a b) xs = (seqScanAux op b xs).map (fun v => op a v)
  | [], _, _ => rfl
  | x :: xs, a, b => by
    simp only [seqScanAux, List.map_cons]
    refine List.cons_eq_cons.mpr ⟨hassoc a b x, ?_⟩
    rw [hassoc]
    exact seqScanAux_op_map op hassoc xs a (op b x)

theorem seqScanAux_eq_map (op : α → α → α)
    (hassoc : ∀ a b c, op (op a b) c = op a (op b c)) :
    ∀ (xs : List α) (a : α), seqScanAux op a xs = (seqScan op xs).map (fun v => op a v)
  | [], _ => rfl
  | x :: xs, a => by
    simp only [seqScan, seqScanAux, List.map_cons]
    refine List.cons_eq_cons.mpr ⟨rfl, ?_⟩
    exact seqScanAux_op_map op hassoc xs a x

theorem foldl_op (op : α → α → α) (hassoc : ∀ a b c, op (op a b) c = op a (op b c)) :
    ∀ (xs : List α) (a b : α), xs.foldl op (op a b) = op a (xs.foldl op b)
  | [], _, _ => rfl
  | x :: xs, a, b => by
    simp only [List.foldl_cons, hassoc]
    exact foldl_op op hassoc xs a (op b x)

theorem blockTotal_foldl (op : α → α → α) (z : α)
    (hassoc : ∀ a b c, op (op a b) c = op a (op b c))
    (hrid : ∀ a, op a z = a) :
    ∀ (xs : List α) (a : α), op a (blockTotal op z xs) = xs.foldl op a
  | [], a => hrid a
  | x :: t, a => by
    simp only [blockTotal, List.foldl_cons]
    exact (foldl_op op hassoc t a x).symm

theorem seqScanAux_getD (op : α → α → α) (z : α) :
    ∀ (xs : List α) (j : Nat) (a : α), j < xs.length →
      (seqScanAux op a xs).getD j z = (xs.take (j + 1)).foldl op a
  | [], j, _, h => absurd h (by simp)
  | x :: t, 0, a, _ => by simp [seqScanAux]
  | x :: t, j + 1, a, h => by
    simp only [seqScanAux, List.getD_cons_succ, List.take_succ_cons, List.foldl_cons]
    exact seqScanAux_getD op z t j (op a x) (by simpa using h)

theorem seqScan_getLastD (op : α → α → α) (z : α) (xs : List α) (m : Nat)
    (h : xs.length = m + 1) : (seqScan op xs).getD m z = blockTotal op z xs := by
  cases xs with
  | nil => simp at h
  | cons x t =>
    have hm : m = t.length := by simpa using h.symm
    subst hm
    cases t with
    | nil => simp [seqScan, blockTotal]
    | cons y u =>
      simp only [seqScan, blockTotal]
      have hs : (y :: u).length = ((y :: u).length - 1) + 1 := by simp
      rw [List.length_cons, List.getD_cons_succ,
        seqScanAux_getD op z (y :: u) u.length x (by simp),
        List.take_of_length_le (by simp)]

/-! Small `List.getD` / `List.drop` helpers. -/

theorem getD_of_drop_cons (z : α) :
    ∀ (l : List α) (m : Nat) (a : α) (t : List α), l.drop m = a :: t → l.getD m z = a
  | l, 0, a, t, h => by rw [List.drop_zero] at h; rw [h]; rfl
  | [], m + 1, a, t, h => by simp at h
  | x :: l, m + 1, a, t, h => by
    rw [List.drop_succ_cons] at h
    rw [List.getD_cons_succ]
    exact getD_of_drop_cons z l m a t h

theorem drop_of_drop_cons :
    ∀ (l : List α) (m : Nat) (a : α) (t : List α), l.drop m = a :: t → l.drop (m + 1) = t
  | l, 0, a, t, h => by rw [List.drop_zero] at h; rw [h]; rfl
  | [], m + 1, a, t, h => by simp at h
  | x :: l, m + 1, a, t, h => by
    rw [List.drop_succ_cons] at h
    rw [List.drop_succ_cons]
    exact drop_of_drop_cons l m a t h

theorem getD_map_of_lt (f : α → α) (d₁ d₂ : α) :
    ∀ (l : List α) (i : Nat), i < l.length → (l.map f).getD i d₁ = f (l.getD i d₂)
  | [], i, h => absurd h (by simp)
  | x :: l, 0, _ => rfl
  | x :: l, i + 1, h => by
    simp only [List.map_cons, List.getD_cons_succ]
    exact getD_map_of_lt f d₁ d₂ l i (by simpa using h)

/-! Facts about `chunksW`. -/

theorem chunksFuel_congr {w : Nat} (hw : 1 ≤ w) :
    ∀ (f₁ f₂ : Nat) (xs : List α), xs.length ≤ f₁ → xs.length ≤ f₂ →
      chunksFuel w f₁ xs = chunksFuel w f₂ xs
  | 0, f₂, xs, h₁, _ => by
    have hx : xs = [] := List.length_eq_zero.mp (by omega)
    subst hx
    cases f₂ <;> rfl
  | f₁ + 1, f₂, [], _, _ => by cases f₂ <;> rfl
  | f₁ + 1, f₂, x :: t, h₁, h₂ => by
    cases f₂ with
    | zero => simp at h₂
    | succ f₂ =>
      simp only [chunksFuel]
      simp only [List.length_cons] at h₁ h₂
      refine List.cons_eq_cons.mpr ⟨rfl, ?_⟩
      refine chunksFuel_congr hw f₁ f₂ _ ?_ ?_ <;>
        simp only [List.length_drop, List.length_cons] <;> omega

theorem chunksW_nil (w : Nat) : chunksW w ([] : List α) = [] := rfl

theorem chunksW_cons {w : Nat} (hw : 1 ≤ w) (xs : List α) (h : xs ≠ []) :
    chunksW w xs = xs.take w :: chunksW w (xs.drop w) := by
  cases xs with
  | nil => exact absurd rfl h
  | cons x t =>
    show chunksFuel w (t.length + 1) (x :: t) = _
    simp only [chunksFuel]
    refine List.cons_eq_cons.mpr ⟨rfl, ?_⟩
    exact chunksFuel_congr hw t.length ((x :: t).drop w).length _ (by simp; omega) le_rfl

theorem chunksFuel_flatten {w : Nat} (hw : 1 ≤ w) :
    ∀ (f : Nat) (xs : List α), xs.length ≤ f → (chunksFuel w f xs).flatten = xs
  | 0, xs, h => by
    have hx : xs = [] := List.length_eq_zero.mp (by omega)
    subst hx; rfl
  | f + 1, [], _ => rfl
  | f + 1, x :: t, h => by
    simp only [chunksFuel, List.flatten_cons]
    simp only [List.length_cons] at h
    rw [chunksFuel_flatten hw f _
        (by simp only [List.length_drop, List.length_cons]; omega),
      List.take_append_drop]

theorem chunksW_flatten {w : Nat} (hw : 1 ≤ w) (xs : List α) :
    (chunksW w xs).flatten = xs :=
  chunksFuel_flatten hw xs.length xs le_rfl

theorem chunksFuel_uniform {w : Nat} (hw : 1 ≤ w) :
    ∀ (f : Nat) (xs : List α), xs.length ≤ f → w ∣ xs.length →
      ∀ c ∈ chunksFuel w f xs, c.length = w
  | 0, xs, h, _, c, hc => by
    have hx : xs = [] := List.length_eq_zero.mp (by omega)
    subst hx; simp [chunksFuel] at hc
  | f + 1, [], _, _, c, hc => by simp [chunksFuel] at hc
  | f + 1, x :: t, h, hdvd, c, hc => by
    simp only [chunksFuel, List.mem_cons] at hc
    rcases hc with hc | hc
    · subst hc
      have hlen : w ≤ (x :: t).length := Nat.le_of_dvd (by simp) hdvd
      simp only [List.length_take]
      omega
    · simp only [List.length_cons] at h
      refine chunksFuel_uniform hw f _
        (by simp only [List.length_drop, List.length_cons]; omega) ?_ c hc
      rw [List.length_drop]
      exact Nat.dvd_sub' hdvd dvd_rfl

theorem chunksW_uniform {w : Nat} (hw : 1 ≤ w) (xs : List α) (hdvd : w ∣ xs.length) :
    ∀ c ∈ chunksW w xs, c.length = w :=
  chunksFuel_uniform hw xs.length xs le_rfl hdvd

theorem chunksFuel_count {w : Nat} (hw : 1 ≤ w) :
    ∀ (f : Nat) (xs : List α), xs.length ≤ f →
      (chunksFuel w f xs).length = div_ceil xs.length w
  | 0, xs, h => by
    have hx : xs = [] := List.length_eq_zero.mp (by omega)
    subst hx
    simp [chunksFuel, div_ceil, Nat.div_eq_of_lt (by omega : w - 1 < w)]
  | f + 1, [], _ => by
    simp [chunksFuel, div_ceil, Nat.div_eq_of_lt (by omega : w - 1 < w)]
  | f + 1, x :: t, h => by
    simp only [chunksFuel, List.length_cons]
    simp only [List.length_cons] at h
    rw [chunksFuel_count hw f _
        (by simp only [List.length_drop, List.length_cons]; omega),
      List.length_drop, List.length_cons,
      div_ceil_shift hw (by omega : 0 < t.length + 1)]

theorem chunksW_count {w : Nat} (hw : 1 ≤ w) (xs : List α) :
    (chunksW w xs).length = div_ceil xs.length w :=
  chunksFuel_count hw xs.length xs le_rfl

theorem chunksW_of_uniform {w : Nat} (hw : 1 ≤ w) :
    ∀ (L : List (List α)), (∀ c ∈ L, c.length = w) → chunksW w L.flatten = L
  | [], _ => rfl
  | c :: L, h => by
    have hc : c.length = w := h c (by simp)
    have hcne : c ≠ [] := by
      intro he; rw [he] at hc; simp at hc; omega
    have hne : (c :: L).flatten ≠ [] := by
      simp only [List.flatten_cons]
      intro he
      exact hcne (List.append_eq_nil.mp he).1
    have htake : (c ++ L.flatten).take w = c := by
      rw [← hc]; exact List.take_left c L.flatten
    have hdropl : (c ++ L.flatten).drop w = L.flatten := by
      rw [← hc]; exact List.drop_left c L.flatten
    rw [chunksW_cons hw _ hne]
    simp only [List.flatten_cons]
    rw [htake, hdropl]
    refine List.cons_eq_cons.mpr ⟨rfl, ?_⟩
    exact chunksW_of_uniform hw L (fun d hd => h d (by simp [hd]))

/-! Facts about `List.flatten` of uniformly sized chunks. -/

theorem flatten_length_uniform {w : Nat} :
    ∀ (L : List (List α)), (∀ c ∈ L, c.length = w) → L.flatten.length = L.length * w
  | [], _ => by simp
  | c :: L, h => by
    simp only [List.flatten_cons, List.length_append, List.length_cons]
    rw [flatten_length_uniform L (fun d hd => h d (by simp [hd])), h c (by simp)]
    ring

theorem flatten_getD_uniform {w : Nat} (z : α) :
    ∀ (L : List (List α)) (j : Nat), (∀ c ∈ L, c.length = w) → j < L.length * w →
      L.flatten.getD j z = (L.getD (j / w) []).getD (j % w) z
  | [], j, _, hj => by simp at hj
  | c :: L, j, h, hj => by
    have hw : 0 < w := by
      rcases Nat.eq_zero_or_pos w with hw0 | hw0
      · rw [hw0] at hj; simp at hj
      · exact hw0
    have hc : c.length = w := h c (by simp)
    simp only [List.flatten_cons]
    by_cases hjw : j < w
    · rw [List.getD_append _ _ _ _ (by omega), Nat.div_eq_of_lt hjw,
        Nat.mod_eq_of_lt hjw, List.getD_cons_zero]
    · have hj' : j - w < L.length * w := by
        rw [List.length_cons, Nat.succ_mul] at hj
        omega
      rw [List.getD_append_right _ _ _ _ (by omega)]
      rw [hc]
      rw [flatten_getD_uniform z L (j - w) (fun d hd => h d (by simp [hd])) hj']
      have hdiv : j / w = (j - w) / w + 1 := by
        conv_lhs => rw [show j = j - w + w by omega]
        rw [Nat.add_div_right _ hw]
      have hmod : j % w = (j - w) % w := by
        conv_lhs => rw [show j = j - w + w by omega]
        rw [Nat.add_mod_right]
      rw [hdiv, hmod, List.getD_cons_succ]

/-! Facts about `applyCarries`. -/

theorem applyCarries_length (op : α → α → α) (z : α) (cs : List α) :
    ∀ (L : List (List α)) (k : Nat), (applyCarries op z cs k L).length = L.length
  | [], _ => rfl
  | c :: L, k => by
    simp only [applyCarries, List.length_cons]
    rw [applyCarries_length op z cs L (k + 1)]

theorem applyCarries_uniform {w : Nat} (op : α → α → α) (z : α) (cs : List α) :
    ∀ (L : List (List α)) (k : Nat), (∀ c ∈ L, c.length = w) →
      ∀ c ∈ applyCarries op z cs k L, c.length = w
  | [], _, _, c, hc => by simp [applyCarries] at hc
  | c :: L, k, h, d, hd => by
    simp only [applyCarries, List.mem_cons] at hd
    rcases hd with hd | hd
    · subst hd
      by_cases hk : k = 0 <;> simp [hk, h c (by simp)]
    · exact applyCarries_uniform op z cs L (k + 1) (fun e he => h e (by simp [he])) d hd

theorem applyCarries_getD (op : α → α → α) (z : α) (cs : List α) :
    ∀ (L : List (List α)) (k i : Nat), i < L.length →
      (applyCarries op z cs k L).getD i [] =
        if k + i = 0 then L.getD i []
        else (L.getD i []).map (fun v => op v (cs.getD (k + i - 1) z))
  | [], _, i, h => absurd h (by simp)
  | c :: L, k, 0, _ => by
    by_cases hk : k = 0 <;> simp [applyCarries, hk]
  | c :: L, k, i + 1, h => by
    simp only [applyCarries, List.getD_cons_succ]
    rw [applyCarries_getD op z cs L (k + 1) i (by simpa using h)]
    have h1 : k + 1 + i = k + (i + 1) := by omega
    rw [h1]

theorem applyCarries_zero_cons (op : α → α → α) (z : α) (cs : List α)
    (c : List α) (L : List (List α)) :
    applyCarries op z cs 0 (c :: L) = c :: applyCarries op z cs 1 L := by
  simp [applyCarries]

/-! Correctness of carry application: combining each block's local scan with
the running prefix total of the preceding blocks, in the code's operand order
`op(local, carry)`, reproduces the global scan — provided `op` commutes. -/

theorem runFolds_eq (op : α → α → α) (z : α)
    (hassoc : ∀ a b c, op (op a b) c = op a (op b c))
    (hrid : ∀ a, op a z = a) :
    ∀ (cks : List (List α)) (a : α),
      a :: seqScanAux op a (cks.map (blockTotal op z)) =
        runFolds op a cks ++ [cks.flatten.foldl op a]
  | [], a => by simp [seqScanAux, runFolds]
  | c :: rest, a => by
    simp only [List.map_cons, seqScanAux, runFolds, List.flatten_cons, List.cons_append,
      List.foldl_append]
    refine List.cons_eq_cons.mpr ⟨rfl, ?_⟩
    rw [blockTotal_foldl op z hassoc hrid c a]
    exact runFolds_eq op z hassoc hrid rest (c.foldl op a)

theorem applyCarries_flatten_eq (op : α → α → α) (z : α)
    (hassoc : ∀ a b c, op (op a b) c = op a (op b c))
    (hcomm : ∀ a b, op a b = op b a) (cs : List α) :
    ∀ (cks : List (List α)) (k : Nat) (a : α) (junk : List α), 1 ≤ k →
      cs.drop (k - 1) = runFolds op a cks ++ junk →
      (applyCarries op z cs k (cks.map (seqScan op))).flatten = seqScanAux op a cks.flatten
  | [], k, a, junk, hk, hdrop => by simp [applyCarries, seqScanAux]
  | c :: rest, k, a, junk, hk, hdrop => by
    simp only [runFolds, List.cons_append] at hdrop
    have hget : cs.getD (k - 1) z = a := getD_of_drop_cons z cs (k - 1) _ _ hdrop
    have hdrop' : cs.drop k = runFolds op (c.foldl op a) rest ++ junk := by
      have := drop_of_drop_cons cs (k - 1) _ _ hdrop
      rwa [Nat.sub_add_cancel hk] at this
    simp only [List.map_cons, applyCarries, if_neg (by omega : ¬k = 0), List.flatten_cons]
    rw [hget]
    have hhead : (seqScan op c).map (fun v => op v a) = seqScanAux op a c := by
      rw [seqScanAux_eq_map op hassoc c a]
      exact List.map_congr_left (fun v _ => hcomm v a)
    rw [hhead,
      applyCarries_flatten_eq op z hassoc hcomm cs rest (k + 1) (c.foldl op a) junk
        (by omega) (by simpa using hdrop'),
      seqScanAux_append]

/-! Unfolding and correctness of `inclusive_scan_over_group`. -/

theorem iscog_fuel_succ_base (op : α → α → α) (z : α) (w f : Nat) (xs : List α)
    (h : xs.length ≤ w) :
    inclusive_scan_over_group_fuel op z w (f + 1) xs =
      (seqScan op (xs ++ List.replicate (w - xs.length) z)).take xs.length := by
  simp [inclusive_scan_over_group_fuel, h]

theorem iscog_fuel_succ_rec (op : α → α → α) (z : α) (w f : Nat) (xs : List α)
    (h : ¬xs.length ≤ w) :
    inclusive_scan_over_group_fuel op z w (f + 1) xs =
      ((applyCarries op z
          (inclusive_scan_over_group_fuel op z w f
            ((chunksW w (xs ++ List.replicate (div_ceil xs.length w * w - xs.length) z)).map
              fun c => (seqScan op c).getD (w - 1) z))
          0
          ((chunksW w (xs ++ List.replicate (div_ceil xs.length w * w - xs.length) z)).map
            (seqScan op))).flatten).take xs.length := by
  simp [inclusive_scan_over_group_fuel, h]

theorem iscog_base (op : α → α → α) (z : α) (w : Nat) (xs : List α) (h : xs.length ≤ w) :
    inclusive_scan_over_group op z w xs = seqScan op xs := by
  cases xs with
  | nil => rfl
  | cons x t =>
    show inclusive_scan_over_group_fuel op z w (t.length + 1) (x :: t) = _
    rw [iscog_fuel_succ_base op z w t.length (x :: t) (by simpa using h)]
    exact seqScan_take op (x :: t) _

theorem iscog_fuel_correct (op : α → α → α) (z : α) {w : Nat} (hw : 2 ≤ w)
    (hassoc : ∀ a b c, op (op a b) c = op a (op b c))
    (hcomm : ∀ a b, op a b = op b a)
    (hrid : ∀ a, op a z = a) :
    ∀ (f : Nat) (xs : List α), xs.length ≤ f →
      inclusive_scan_over_group_fuel op z w f xs = seqScan op xs
  | 0, xs, h => by
    have hx : xs = [] := List.length_eq_zero.mp (by omega)
    subst hx; rfl
  | f + 1, xs, h => by
    by_cases hbase : xs.length ≤ w
    · rw [iscog_fuel_succ_base op z w f xs hbase]
      exact seqScan_take op xs _
    · rw [iscog_fuel_succ_rec op z w f xs hbase]
      set pad := List.replicate (div_ceil xs.length w * w - xs.length) z with hpad
      set cks := chunksW w (xs ++ pad) with hcksdef
      have hw1 : (1 : Nat) ≤ w := by omega
      have hceil : xs.length ≤ div_ceil xs.length w * w := by
        have := le_ceil (show 0 < w by omega) xs.length
        unfold ceil at this
        exact this
      have hpadlen : (xs ++ pad).length = div_ceil xs.length w * w := by
        rw [hpad]
        simp only [List.length_append, List.length_replicate]
        omega
      have huni : ∀ c ∈ cks, c.length = w := by
        rw [hcksdef]
        exact chunksW_uniform hw1 _ (by rw [hpadlen]; exact dvd_mul_left w _)
      have hcount : cks.length = div_ceil xs.length w := by
        rw [hcksdef, chunksW_count hw1, hpadlen, div_ceil_mul (by omega)]
      have hflat : cks.flatten = xs ++ pad := by
        rw [hcksdef]
        exact chunksW_flatten hw1 _
      have hcoarse : (cks.map fun c => (seqScan op c).getD (w - 1) z) =
          cks.map (blockTotal op z) :=
        List.map_congr_left fun c hc =>
          seqScan_getLastD op z c (w - 1) (by rw [huni c hc]; omega)
      have hscanned : inclusive_scan_over_group_fuel op z w f
            (cks.map fun c => (seqScan op c).getD (w - 1) z) =
          seqScan op (cks.map (blockTotal op z)) := by
        rw [hcoarse]
        refine iscog_fuel_correct op z hw hassoc hcomm hrid f _ ?_
        rw [List.length_map, hcount]
        have := div_ceil_lt' hw (show 2 ≤ xs.length by omega)
        omega
      obtain ⟨c0, crest, hck⟩ : ∃ c0 crest, cks = c0 :: crest := by
        cases hcc : cks with
        | nil =>
          rw [hcc] at hcount
          have := div_ceil_pos (show 0 < w by omega) (show 0 < xs.length by omega)
          simp at hcount
          omega
        | cons a b => exact ⟨a, b, rfl⟩
      have hc0 : c0 ≠ [] := by
        have := huni c0 (by rw [hck]; simp)
        intro he
        rw [he] at this
        simp at this
        omega
      rw [hscanned, hck]
      simp only [List.map_cons]
      rw [applyCarries_zero_cons, List.flatten_cons]
      have hacs : (applyCarries op z (seqScan op ((c0 :: crest).map (blockTotal op z))) 1
            (crest.map (seqScan op))).flatten =
          seqScanAux op (blockTotal op z c0) crest.flatten := by
        refine applyCarries_flatten_eq op z hassoc hcomm _ crest 1 (blockTotal op z c0)
          [crest.flatten.foldl op (blockTotal op z c0)] le_rfl ?_
        rw [Nat.sub_self, List.drop_zero]
        simp only [List.map_cons, seqScan]
        exact runFolds_eq op z hassoc hrid crest (blockTotal op z c0)
      simp only [List.map_cons] at hacs
      rw [hacs, ← seqScan_append op z c0 crest.flatten hc0, ← List.flatten_cons, ← hck, hflat]
      exact seqScan_take op xs pad

theorem inclusive_scan_over_group_eq (op : α → α → α) (z : α) {w : Nat} (hw : 2 ≤ w)
    (hassoc : ∀ a b c, op (op a b) c = op a (op b c))
    (hcomm : ∀ a b, op a b = op b a)
    (hrid : ∀ a, op a z = a) (xs : List α) :
    inclusive_scan_over_group op z w xs = seqScan op xs :=
  iscog_fuel_correct op z hw hassoc hcomm hrid xs.length xs le_rfl

/-! Facts about the intermediate-buffer chain construction. -/

theorem allocFuel_congr {G : Nat} (hG : 2 ≤ G) :
    ∀ (f₁ f₂ n : Nat), n ≤ f₁ → n ≤ f₂ → allocFuel G f₁ n = allocFuel G f₂ n
  | 0, f₂, n, h₁, _ => by
    have hn : n = 0 := by omega
    subst hn
    cases f₂ with
    | zero => rfl
    | succ f => simp [allocFuel]
  | f₁ + 1, f₂, n, h₁, h₂ => by
    by_cases h : 1 < n
    · cases f₂ with
      | zero => omega
      | succ f₂ =>
        simp only [allocFuel, if_pos h]
        refine List.cons_eq_cons.mpr ⟨rfl, ?_⟩
        have hlt := div_ceil_lt' hG (show 2 ≤ n by omega)
        exact allocFuel_congr hG f₁ f₂ _ (by omega) (by omega)
    · cases f₂ with
      | zero =>
        have hn : n = 0 := by omega
        subst hn
        simp [allocFuel]
      | succ f₂ => simp [allocFuel, h]

theorem alloc_eq_nil_iff {G : Nat} (_hG : 2 ≤ G) (n : Nat) :
    hierarchical_inclusive_scan_allocate G n = [] ↔ n ≤ 1 := by
  unfold hierarchical_inclusive_scan_allocate
  constructor
  · intro h
    by_contra hn
    cases n with
    | zero => omega
    | succ m => simp [allocFuel, show 1 < m + 1 by omega] at h
  · intro h
    cases n with
    | zero => rfl
    | succ m =>
      have hm : m = 0 := by omega
      subst hm
      simp [allocFuel]

theorem alloc_cons {G : Nat} (hG : 2 ≤ G) (n : Nat) (hn : 2 ≤ n) :
    hierarchical_inclusive_scan_allocate G n =
      ceil (div_ceil n G) G :: hierarchical_inclusive_scan_allocate G (div_ceil n G) := by
  unfold hierarchical_inclusive_scan_allocate
  cases n with
  | zero => omega
  | succ m =>
    simp only [allocFuel, if_pos (show 1 < m + 1 by omega)]
    refine List.cons_eq_cons.mpr ⟨rfl, ?_⟩
    have := div_ceil_lt' hG hn
    exact allocFuel_congr hG m _ _ (by omega) le_rfl

theorem alloc_ceil {G : Nat} (hG : 2 ≤ G) (K : Nat) (hK : 2 ≤ K) :
    hierarchical_inclusive_scan_allocate G (ceil K G) =
      hierarchical_inclusive_scan_allocate G K := by
  have h1 : 2 ≤ ceil K G := le_trans hK (le_ceil (by omega) K)
  rw [alloc_cons hG _ h1, alloc_cons hG K hK, div_ceil_ceil (show 0 < G by omega)]

/-! Correctness of the expansion kernel on block-scanned input, and of the
whole hierarchical scan. -/

theorem expandKernel_correct (op : α → α → α) (z : α) {G : Nat} (hG : 1 ≤ G)
    (hassoc : ∀ a b c, op (op a b) c = op a (op b c))
    (hcomm : ∀ a b, op a b = op b a)
    (hrid : ∀ a, op a z = a)
    (cks : List (List α)) (junk : List α)
    (huni : ∀ c ∈ cks, c.length = G) (hne : cks ≠ []) :
    expandKernel G op z ((cks.map (seqScan op)).flatten)
        (seqScan op (cks.map (blockTotal op z) ++ junk)) =
      seqScan op cks.flatten := by
  unfold expandKernel
  have huniS : ∀ c ∈ cks.map (seqScan op), c.length = G := by
    intro c hc
    obtain ⟨d, hd, rfl⟩ := List.mem_map.mp hc
    rw [seqScan_length]
    exact huni d hd
  rw [chunksW_of_uniform hG _ huniS]
  obtain ⟨c0, crest, rfl⟩ : ∃ c0 crest, cks = c0 :: crest := by
    cases cks with
    | nil => exact absurd rfl hne
    | cons a b => exact ⟨a, b, rfl⟩
  have hc0 : c0 ≠ [] := by
    have := huni c0 (by simp)
    intro he
    rw [he] at this
    simp at this
    omega
  simp only [List.map_cons]
  rw [applyCarries_zero_cons, List.flatten_cons]
  have hacs : (applyCarries op z
        (seqScan op ((blockTotal op z c0 :: crest.map (blockTotal op z)) ++ junk)) 1
        (crest.map (seqScan op))).flatten =
      seqScanAux op (blockTotal op z c0) crest.flatten := by
    refine applyCarries_flatten_eq op z hassoc hcomm _ crest 1 (blockTotal op z c0)
      (crest.flatten.foldl op (blockTotal op z c0) ::
        seqScanAux op ((crest.map (blockTotal op z)).foldl op (blockTotal op z c0)) junk)
      le_rfl ?_
    rw [Nat.sub_self, List.drop_zero, List.cons_append]
    simp only [seqScan]
    rw [seqScanAux_append]
    have hrf := runFolds_eq op z hassoc hrid crest (blockTotal op z c0)
    rw [← List.cons_append, hrf, List.append_assoc]
    rfl
  rw [hacs, ← seqScan_append op z c0 crest.flatten hc0, ← List.flatten_cons]

theorem reduceKernel_fst (op : α → α → α) (z : α) {G w : Nat} (_hG : 2 ≤ G) (hw : 2 ≤ w)
    (hassoc : ∀ a b c, op (op a b) c = op a (op b c))
    (hcomm : ∀ a b, op a b = op b a)
    (hrid : ∀ a, op a z = a) (big small : List α) :
    (reduceKernel G w op z big small).1 = ((chunksW G big).map (seqScan op)).flatten := by
  unfold reduceKernel
  simp only
  congr 1
  exact List.map_congr_left fun c _ =>
    inclusive_scan_over_group_eq op z hw hassoc hcomm hrid c

theorem reduceKernel_snd (op : α → α → α) (z : α) {G w : Nat} (hG : 2 ≤ G) (hw : 2 ≤ w)
    (hassoc : ∀ a b c, op (op a b) c = op a (op b c))
    (hcomm : ∀ a b, op a b = op b a)
    (hrid : ∀ a, op a z = a) (big small : List α) (hdvd : G ∣ big.length) :
    (reduceKernel G w op z big small).2 =
      (chunksW G big).map (blockTotal op z) ++ small.drop (big.length / G) := by
  unfold reduceKernel
  simp only
  congr 1
  rw [List.map_map]
  refine List.map_congr_left fun c hc => ?_
  show (inclusive_scan_over_group op z w c).getD (G - 1) z = _
  rw [inclusive_scan_over_group_eq op z hw hassoc hcomm hrid c]
  exact seqScan_getLastD op z c (G - 1)
    (by rw [chunksW_uniform (by omega) big hdvd c hc]; omega)

theorem hscan_correct (op : α → α → α) (z : α) {G w : Nat} (hG : 2 ≤ G) (hw : 2 ≤ w)
    (hassoc : ∀ a b c, op (op a b) c = op a (op b c))
    (hcomm : ∀ a b, op a b = op b a)
    (hrid : ∀ a, op a z = a) :
    ∀ (bufs : List (List α)) (big : List α), G ∣ big.length →
      bufs.map List.length = hierarchical_inclusive_scan_allocate G big.length →
      hierarchical_inclusive_scan G w op z big bufs = seqScan op big
  | [], big, hdvd, halloc => by
    have halloc' : hierarchical_inclusive_scan_allocate G big.length = [] := by
      simpa using halloc.symm
    have hb : big.length ≤ 1 := (alloc_eq_nil_iff hG _).mp halloc'
    have hb0 : big.length = 0 := by
      rcases hdvd with ⟨k, hk⟩
      cases k with
      | zero => omega
      | succ k' =>
        have : G ≤ G * (k' + 1) := Nat.le_mul_of_pos_right G (by omega)
        omega
    have hbig : big = [] := List.length_eq_zero.mp hb0
    subst hbig
    rfl
  | s :: rest, big, hdvd, halloc => by
    have hNne : hierarchical_inclusive_scan_allocate G big.length ≠ [] := by
      rw [← halloc]
      simp
    have hN2 : 2 ≤ big.length := by
      by_contra hx
      exact hNne ((alloc_eq_nil_iff hG _).mpr (by omega))
    rw [alloc_cons hG big.length hN2] at halloc
    simp only [List.map_cons] at halloc
    obtain ⟨hs, hrest⟩ := List.cons_eq_cons.mp halloc
    have hK1 : 1 ≤ div_ceil big.length G := div_ceil_pos (by omega) (by omega)
    have hKN : div_ceil big.length G = big.length / G := div_ceil_eq_div (by omega) hdvd
    have huni : ∀ c ∈ chunksW G big, c.length = G := chunksW_uniform (by omega) big hdvd
    have hflat : (chunksW G big).flatten = big := chunksW_flatten (by omega) big
    have hcount : (chunksW G big).length = div_ceil big.length G :=
      chunksW_count (by omega) big
    have hbigred := reduceKernel_fst op z hG hw hassoc hcomm hrid big s
    have hsmallred := reduceKernel_snd op z hG hw hassoc hcomm hrid big s hdvd
    have hs1len : ((reduceKernel G w op z big s).2).length = ceil (div_ceil big.length G) G := by
      rw [hsmallred]
      simp only [List.length_append, List.length_map, List.length_drop, hcount, hs, hKN]
      have h1 := le_ceil (show 0 < G by omega) (div_ceil big.length G)
      rw [hKN] at h1
      omega
    have hs1dvd : G ∣ ((reduceKernel G w op z big s).2).length := by
      rw [hs1len]
      exact dvd_ceil _ G
    cases rest with
    | nil =>
      have hKle : div_ceil big.length G ≤ 1 := by
        refine (alloc_eq_nil_iff hG _).mp ?_
        simpa using hrest.symm
      obtain ⟨c, hc⟩ := List.length_eq_one.mp (by rw [hcount]; omega)
      have hcbig : c = big := by
        rw [hc] at hflat
        simpa using hflat
      rw [show hierarchical_inclusive_scan G w op z big [s] =
          (reduceKernel G w op z big s).1 from rfl, hbigred, hc, hcbig]
      simp
    | cons r rs =>
      have hKne : hierarchical_inclusive_scan_allocate G (div_ceil big.length G) ≠ [] := by
        rw [← hrest]
        simp
      have hK2 : 2 ≤ div_ceil big.length G := by
        by_contra hx
        exact hKne ((alloc_eq_nil_iff hG _).mpr (by omega))
      have hIH : hierarchical_inclusive_scan G w op z
            (reduceKernel G w op z big s).2 (r :: rs) =
          seqScan op (reduceKernel G w op z big s).2 := by
        refine hscan_correct op z hG hw hassoc hcomm hrid (r :: rs) _ hs1dvd ?_
        rw [hs1len, alloc_ceil hG _ hK2]
        exact hrest
      have hstruct : hierarchical_inclusive_scan G w op z big (s :: r :: rs) =
          expandKernel G op z (reduceKernel G w op z big s).1
            (hierarchical_inclusive_scan G w op z (reduceKernel G w op z big s).2 (r :: rs)) :=
        rfl
      rw [hstruct, hIH, hbigred, hsmallred]
      have hcksne : chunksW G big ≠ [] := by
        refine List.length_pos.mp ?_
        rw [hcount]
        omega
      rw [expandKernel_correct op z (by omega) hassoc hcomm hrid (chunksW G big)
        (s.drop (big.length / G)) huni hcksne, hflat]

/-! Characterisation of the buffer chain against the spec's level formula. -/

theorem specUnroundedCount_shift (G n k : Nat) :
    specUnroundedCount G n (k + 1) = specUnroundedCount G (div_ceil n G) k := by
  induction k with
  | zero => rfl
  | succ k ih =>
    show div_ceil (specUnroundedCount G n (k + 1)) G = _
    rw [ih]
    rfl

theorem alloc_getD {G : Nat} (hG : 2 ≤ G) :
    ∀ (B n k : Nat), n ≤ B → k < (hierarchical_inclusive_scan_allocate G n).length →
      (hierarchical_inclusive_scan_allocate G n).getD k 0 =
        ceil (specUnroundedCount G n k) G
  | 0, n, k, hB, hk => by
    have hn : n = 0 := by omega
    subst hn
    rw [(alloc_eq_nil_iff hG 0).mpr (by omega)] at hk
    simp at hk
  | B + 1, n, k, hB, hk => by
    by_cases h1 : n ≤ 1
    · rw [(alloc_eq_nil_iff hG n).mpr h1] at hk
      simp at hk
    · rw [alloc_cons hG n (by omega)] at hk ⊢
      cases k with
      | zero => simp [specUnroundedCount]
      | succ k =>
        rw [List.getD_cons_succ, specUnroundedCount_shift]
        refine alloc_getD hG B (div_ceil n G) k ?_ ?_
        · have := div_ceil_lt' hG (show 2 ≤ n by omega)
          omega
        · simpa using hk

theorem alloc_mid_gt_one {G : Nat} (hG : 2 ≤ G) :
    ∀ (B n k : Nat), n ≤ B → k + 1 < (hierarchical_inclusive_scan_allocate G n).length →
      1 < specUnroundedCount G n k
  | 0, n, k, hB, hk => by
    have hn : n = 0 := by omega
    subst hn
    rw [(alloc_eq_nil_iff hG 0).mpr (by omega)] at hk
    simp at hk
  | B + 1, n, k, hB, hk => by
    by_cases h1 : n ≤ 1
    · rw [(alloc_eq_nil_iff hG n).mpr h1] at hk
      simp at hk
    · rw [alloc_cons hG n (by omega)] at hk
      simp only [List.length_cons] at hk
      cases k with
      | zero =>
        show 1 < div_ceil n G
        by_contra hx
        have hnil : hierarchical_inclusive_scan_allocate G (div_ceil n G) = [] :=
          (alloc_eq_nil_iff hG _).mpr (by omega)
        rw [hnil] at hk
        simp at hk
      | succ k =>
        rw [specUnroundedCount_shift]
        refine alloc_mid_gt_one hG B (div_ceil n G) k ?_ (by omega)
        have := div_ceil_lt' hG (show 2 ≤ n by omega)
        omega

theorem alloc_last_one {G : Nat} (hG : 2 ≤ G) :
    ∀ (B n : Nat), n ≤ B → hierarchical_inclusive_scan_allocate G n ≠ [] →
      specUnroundedCount G n ((hierarchical_inclusive_scan_allocate G n).length - 1) = 1
  | 0, n, hB, hne => by
    have hn : n = 0 := by omega
    subst hn
    exact absurd ((alloc_eq_nil_iff hG 0).mpr (by omega)) hne
  | B + 1, n, hB, hne => by
    by_cases h1 : n ≤ 1
    · exact absurd ((alloc_eq_nil_iff hG n).mpr h1) hne
    · rw [alloc_cons hG n (by omega)]
      simp only [List.length_cons, Nat.add_sub_cancel]
      by_cases h2 : hierarchical_inclusive_scan_allocate G (div_ceil n G) = []
      · rw [h2]
        show specUnroundedCount G n 0 = 1
        have ha := (alloc_eq_nil_iff hG (div_ceil n G)).mp h2
        have hb := div_ceil_pos (show 0 < G by omega) (show 0 < n by omega)
        show div_ceil n G = 1
        omega
      · have hlen : 1 ≤ (hierarchical_inclusive_scan_allocate G (div_ceil n G)).length :=
          List.length_pos.mpr h2
        obtain ⟨m, hm⟩ :
            ∃ m, (hierarchical_inclusive_scan_allocate G (div_ceil n G)).length = m + 1 :=
          ⟨_, (Nat.succ_pred_eq_of_pos hlen).symm⟩
        rw [hm, specUnroundedCount_shift]
        have hrec := alloc_last_one hG B (div_ceil n G)
          (by have := div_ceil_lt' hG (show 2 ≤ n by omega); omega) h2
        rw [hm] at hrec
        simpa using hrec

theorem alloc_mem_dvd {G : Nat} (hG : 2 ≤ G) :
    ∀ (B n : Nat), n ≤ B → ∀ s ∈ hierarchical_inclusive_scan_allocate G n, G ∣ s
  | 0, n, hB, s, hs => by
    have hn : n = 0 := by omega
    subst hn
    rw [(alloc_eq_nil_iff hG 0).mpr (by omega)] at hs
    simp at hs
  | B + 1, n, hB, s, hs => by
    by_cases h1 : n ≤ 1
    · rw [(alloc_eq_nil_iff hG n).mpr h1] at hs
      simp at hs
    · rw [alloc_cons hG n (by omega)] at hs
      rcases List.mem_cons.mp hs with h | h
      · rw [h]
        exact dvd_ceil _ G
      · refine alloc_mem_dvd hG B (div_ceil n G) ?_ s h
        have := div_ceil_lt' hG (show 2 ≤ n by omega)
        omega

theorem scan_level_sizes_step {G N : Nat} (hG : 2 ≤ G) (hdvd : G ∣ N) (i : Nat)
    (hi : i + 1 < (scan_level_sizes G N).length) :
    G ∣ (scan_level_sizes G N).getD i 0 ∧
      (scan_level_sizes G N).getD i 0 / G ≤ (scan_level_sizes G N).getD (i + 1) 0 := by
  unfold scan_level_sizes at hi ⊢
  simp only [List.length_cons] at hi
  cases i with
  | zero =>
    simp only [List.getD_cons_zero, List.getD_cons_succ]
    refine ⟨hdvd, ?_⟩
    have hlen : 0 < (hierarchical_inclusive_scan_allocate G N).length := by omega
    rw [alloc_getD hG N N 0 le_rfl hlen]
    have h1 : specUnroundedCount G N 0 = div_ceil N G := rfl
    rw [h1, ← div_ceil_eq_div (by omega) hdvd]
    exact le_ceil (by omega) _
  | succ i =>
    simp only [List.getD_cons_succ]
    have hi1 : i < (hierarchical_inclusive_scan_allocate G N).length := by omega
    have hi2 : i + 1 < (hierarchical_inclusive_scan_allocate G N).length := by omega
    rw [alloc_getD hG N N i le_rfl hi1, alloc_getD hG N N (i + 1) le_rfl hi2]
    refine ⟨dvd_ceil _ G, ?_⟩
    rw [ceil_div (show 0 < G by omega)]
    show specUnroundedCount G N (i + 1) ≤ _
    exact le_ceil (by omega) _

/-! Facts about `distribute_for_items`. -/

theorem distribute_for_covers_mem {L R : Nat} (_hL : 0 < L) (t : Nat) (ht : t < L) (j : Nat) :
    j ∈ distribute_for_items L R t ↔ (j < R ∧ j % L = t) := by
  unfold distribute_for_items
  rw [List.mem_append]
  have hRdm := Nat.div_add_mod R L
  have hmodt : t % L = t := Nat.mod_eq_of_lt ht
  constructor
  · intro h
    rcases h with h | h
    · simp only [List.mem_map, List.mem_range] at h
      obtain ⟨it, hit, rfl⟩ := h
      have hmod : (it * L + t) % L = t % L := by
        rw [Nat.mul_comm]
        exact Nat.mul_add_mod L it t
      have hmul : (it + 1) * L ≤ R / L * L := Nat.mul_le_mul_right L (by omega)
      have h1 : (it + 1) * L = it * L + L := by ring
      have h2 : R / L * L = L * (R / L) := by ring
      constructor
      · omega
      · omega
    · by_cases htr : t < R % L
      · simp only [if_pos htr, List.mem_singleton] at h
        subst h
        have hmod : (R / L * L + t) % L = t % L := by
          rw [Nat.mul_comm]
          exact Nat.mul_add_mod L (R / L) t
        have h2 : R / L * L = L * (R / L) := by ring
        exact ⟨by omega, by omega⟩
      · simp [htr] at h
  · rintro ⟨hjR, hjt⟩
    have hjdm := Nat.div_add_mod j L
    have hdivle : j / L ≤ R / L := Nat.div_le_div_right (le_of_lt hjR)
    by_cases hq : j / L < R / L
    · left
      rw [List.mem_map]
      refine ⟨j / L, List.mem_range.mpr hq, ?_⟩
      have h1 : j / L * L = L * (j / L) := by ring
      omega
    · right
      have hq' : j / L = R / L := by omega
      rw [hq'] at hjdm
      have htr : t < R % L := by omega
      simp only [if_pos htr, List.mem_singleton]
      have h1 : R / L * L = L * (R / L) := by ring
      omega

theorem distribute_for_nodup {L R : Nat} (hL : 0 < L) (t : Nat) :
    (distribute_for_items L R t).Nodup := by
  unfold distribute_for_items
  refine List.Nodup.append ?_ ?_ ?_
  · refine List.Nodup.map ?_ (List.nodup_range _)
    intro a b hab
    have hab' : a * L + t = b * L + t := hab
    have h1 : a * L = b * L := by omega
    exact Nat.eq_of_mul_eq_mul_right hL h1
  · by_cases htr : t < R % L <;> simp [htr]
  · intro x hx hy
    by_cases htr : t < R % L
    · simp only [if_pos htr, List.mem_singleton] at hy
      subst hy
      simp only [List.mem_map, List.mem_range] at hx
      obtain ⟨it, hit, heq⟩ := hx
      have h1 : it * L = R / L * L := by omega
      have h2 := Nat.eq_of_mul_eq_mul_right hL h1
      omega
    · simp [htr] at hy

/-! Facts about the scratch structure shape. -/

theorem scratchFuel_congr {w : Nat} (hw : 2 ≤ w) :
    ∀ (f₁ f₂ r : Nat), r ≤ f₁ → r ≤ f₂ →
      inclusive_scan_local_allocation_fuel w f₁ r =
        inclusive_scan_local_allocation_fuel w f₂ r
  | 0, f₂, r, h₁, _ => by
    have hr : r = 0 := by omega
    subst hr
    cases f₂ with
    | zero => rfl
    | succ f => simp [inclusive_scan_local_allocation_fuel]
  | f₁ + 1, f₂, r, h₁, h₂ => by
    by_cases h : r ≤ w
    · cases f₂ with
      | zero =>
        have hr : r = 0 := by omega
        subst hr
        simp [inclusive_scan_local_allocation_fuel]
      | succ f₂ => simp [inclusive_scan_local_allocation_fuel, h]
    · cases f₂ with
      | zero => omega
      | succ f₂ =>
        simp only [inclusive_scan_local_allocation_fuel, if_neg h]
        refine List.cons_eq_cons.mpr ⟨rfl, ?_⟩
        have := div_ceil_lt' hw (show 2 ≤ r by omega)
        exact scratchFuel_congr hw f₁ f₂ _ (by omega) (by omega)

theorem scratch_base {w r : Nat} (h : r ≤ w) : inclusive_scan_local_allocation w r = [] := by
  unfold inclusive_scan_local_allocation
  cases r with
  | zero => rfl
  | succ m => simp [inclusive_scan_local_allocation_fuel, h]

theorem scratch_rec {w r : Nat} (hw : 2 ≤ w) (h : w < r) :
    inclusive_scan_local_allocation w r =
      div_ceil r w :: inclusive_scan_local_allocation w (div_ceil r w) := by
  unfold inclusive_scan_local_allocation
  cases r with
  | zero => omega
  | succ m =>
    simp only [inclusive_scan_local_allocation_fuel, if_neg (show ¬m + 1 ≤ w by omega)]
    refine List.cons_eq_cons.mpr ⟨rfl, ?_⟩
    have := div_ceil_lt' hw (show 2 ≤ m + 1 by omega)
    exact scratchFuel_congr hw m _ _ (by omega) le_rfl

theorem getLastD_of_ne_nil {β : Type} (d₁ d₂ : β) :
    ∀ (l : List β), l ≠ [] → l.getLastD d₁ = l.getLastD d₂
  | [], h => absurd rfl h
  | x :: l, _ => by rw [List.getLastD_cons, List.getLastD_cons]

theorem scratch_last {w : Nat} (hw : 2 ≤ w) :
    ∀ (B r : Nat), r ≤ B → (inclusive_scan_local_allocation w r).getLastD 0 ≤ w
  | 0, r, hB => by
    have hr : r = 0 := by omega
    subst hr
    rw [scratch_base (by omega)]
    simp
  | B + 1, r, hB => by
    by_cases h : r ≤ w
    · rw [scratch_base h]
      simp
    · rw [scratch_rec hw (by omega)]
      by_cases h2 : inclusive_scan_local_allocation w (div_ceil r w) = []
      · rw [h2, List.getLastD_cons, List.getLastD_nil]
        by_contra hx
        rw [scratch_rec hw (by omega)] at h2
        simp at h2
      · rw [List.getLastD_cons, getLastD_of_ne_nil (div_ceil r w) 0 _ h2]
        refine scratch_last hw B (div_ceil r w) ?_
        have := div_ceil_lt' hw (show 2 ≤ r by omega)
        omega

/-! Facts about the submission wrapper. -/

theorem submit_all_spec :
    ∀ (ws : List γ) (q : ProfiledQueue γ ε), (q.verbose = false ∨ q.profiling = false) →
      (submit_all q ws).diagnosticLines = q.diagnosticLines ∧
      (submit_all q ws).submitted = q.submitted ++ ws
  | [], q, _ => by simp [submit_all]
  | cgf :: ws, q, hmode => by
    have hb : (q.verbose && q.profiling) = false := by
      rcases hmode with h | h <;> simp [h]
    have hstep : (submit_and_profile q 0 cgf).2 =
        { q with submitted := q.submitted ++ [cgf] } := by
      unfold submit_and_profile
      rw [hb]
      simp
    have hall : submit_all q (cgf :: ws) = submit_all (submit_and_profile q 0 cgf).2 ws := rfl
    have hrec := submit_all_spec ws (submit_and_profile q 0 cgf).2 (by rw [hstep]; exact hmode)
    rcases hrec with ⟨h1, h2⟩
    rw [hall]
    rw [h1, h2, hstep]
    simp

/-! A `getD` membership helper. -/

theorem getD_mem {β : Type} (d : β) :
    ∀ (l : List β) (i : Nat), i < l.length → l.getD i d ∈ l
  | [], i, h => absurd h (by simp)
  | x :: l, 0, _ => by simp
  | x :: l, i + 1, h => by
    rw [List.getD_cons_succ]
    exact List.mem_cons_of_mem x (getD_mem d l i (by simpa using h))

/-! The claims. -/

/-- Claim C1, counterexample: with the associative, non-commutative operator
`++` on `List Nat` (whose two-sided identity `[]` is the padding zero), an
array of length 4 = 2·G with granularity G = 2, warp size 2, and an
intermediate-buffer chain of the exact allocator sizes, the hierarchical scan
does not produce the naive inclusive scan: the expansion kernel computes
`op(local, carry)` instead of `op(carry, local)`, so index 2 receives
`[2] ++ [0, 1]` instead of `[0, 1] ++ [2]`. -/
theorem claim_C1_counterexample :
    (∀ a b c : List Nat, a ++ b ++ c = a ++ (b ++ c)) ∧
    (∀ a : List Nat, a ++ [] = a) ∧
    (2 ∣ ([[0], [1], [2], [3]] : List (List Nat)).length) ∧
    ([[[9], [9]], [[9], [9]]] : List (List (List Nat))).map List.length =
      hierarchical_inclusive_scan_allocate 2 ([[0], [1], [2], [3]] : List (List Nat)).length ∧
    hierarchical_inclusive_scan 2 2 (fun a b => a ++ b) ([] : List Nat)
        [[0], [1], [2], [3]] [[[9], [9]], [[9], [9]]] ≠
      seqScan (fun a b => a ++ b) [[0], [1], [2], [3]] :=
  ⟨fun a b c => List.append_assoc a b c, fun a => List.append_nil a,
    by decide, by decide, by decide⟩

/-- Claim C1 (amended: the operator must additionally be commutative — the
fix-up pass of `inclusive_scan_over_group` (line 180) and the expansion kernel
(line 258) combine `op(local value, carry)` in that operand order, which for a
merely associative operator yields `op(own, prefix)` instead of
`op(prefix, own)`): for every array length that is a multiple of the
granularity `G` and every associative AND commutative operator `op` with
identity-compatible zero `z`, `hierarchical_inclusive_scan` with the chain
built by `hierarchical_inclusive_scan_allocate` (of arbitrary initial
contents) leaves at every index the naive sequential inclusive scan value. -/
theorem claim_C1 (op : α → α → α) (z : α) (G w : Nat) (hG : 2 ≤ G) (hw : 2 ≤ w)
    (hassoc : ∀ a b c, op (op a b) c = op a (op b c))
    (hcomm : ∀ a b, op a b = op b a)
    (hrid : ∀ a, op a z = a)
    (inOut : List α) (bufs : List (List α)) (hdvd : G ∣ inOut.length)
    (hbufs : bufs.map List.length = hierarchical_inclusive_scan_allocate G inOut.length) :
    hierarchical_inclusive_scan G w op z inOut bufs = seqScan op inOut :=
  hscan_correct op z hG hw hassoc hcomm hrid bufs inOut hdvd hbufs

theorem claim_C1_witness :
    (2 : Nat) ≤ 2 ∧ (2 ∣ ([1, 2, 3, 4] : List Nat).length) ∧
    ([[7, 7], [5, 5]] : List (List Nat)).map List.length =
      hierarchical_inclusive_scan_allocate 2 ([1, 2, 3, 4] : List Nat).length ∧
    hierarchical_inclusive_scan 2 2 (· + ·) 0 [1, 2, 3, 4] [[7, 7], [5, 5]] =
      seqScan (· + ·) [1, 2, 3, 4] :=
  ⟨le_rfl, by decide, by decide,
    claim_C1 (· + ·) 0 2 2 le_rfl le_rfl Nat.add_assoc Nat.add_comm Nat.add_zero
      [1, 2, 3, 4] [[7, 7], [5, 5]] (by decide) (by decide)⟩

/-- Claim C2: in one expansion kernel launch on a `K`-block buffer, the first
block's `G` elements are not modified, and every element of every later block
`b ≥ 1` is overwritten with `op(its current local block-scan value, the carry
read from the next-smaller buffer at index b - 1)` — `small[group_index]` for
the group handling block `group_index + 1`; the buffer length is unchanged. -/
theorem claim_C2 (op : α → α → α) (z : α) (G K : Nat) (big small : List α)
    (hG : 1 ≤ G) (hlen : big.length = K * G) :
    (expandKernel G op z big small).length = big.length ∧
    (∀ j, j < G → (expandKernel G op z big small).getD j z = big.getD j z) ∧
    (∀ j, G ≤ j → j < big.length →
      (expandKernel G op z big small).getD j z =
        op (big.getD j z) (small.getD (j / G - 1) z)) := by
  have hdvd : G ∣ big.length := by
    rw [hlen]
    exact dvd_mul_left G K
  have huni : ∀ c ∈ chunksW G big, c.length = G := chunksW_uniform hG big hdvd
  have hcount : (chunksW G big).length = K := by
    rw [chunksW_count hG, hlen, div_ceil_mul (by omega)]
  have hflat : (chunksW G big).flatten = big := chunksW_flatten hG big
  have huniAC : ∀ c ∈ applyCarries op z small 0 (chunksW G big), c.length = G :=
    applyCarries_uniform op z small (chunksW G big) 0 huni
  have hlenAC : (applyCarries op z small 0 (chunksW G big)).length = K := by
    rw [applyCarries_length, hcount]
  have hlenE : (expandKernel G op z big small).length = big.length := by
    unfold expandKernel
    rw [flatten_length_uniform _ huniAC, hlenAC, hlen]
  have hkey : ∀ j, j < big.length →
      big.getD j z = ((chunksW G big).getD (j / G) []).getD (j % G) z := by
    intro j hj
    have h := flatten_getD_uniform z (chunksW G big) j huni
      (by rw [hcount, ← hlen]; exact hj)
    rwa [hflat] at h
  have hAC : ∀ j, j < big.length → (expandKernel G op z big small).getD j z =
      (if 0 + j / G = 0 then (chunksW G big).getD (j / G) []
       else ((chunksW G big).getD (j / G) []).map
         (fun v => op v (small.getD (0 + j / G - 1) z))).getD (j % G) z := by
    intro j hj
    unfold expandKernel
    rw [flatten_getD_uniform z _ j huniAC (by rw [hlenAC, ← hlen]; exact hj),
      applyCarries_getD op z small _ 0 (j / G)
        (by rw [hcount]
            exact (Nat.div_lt_iff_lt_mul (by omega)).mpr (by rw [← hlen]; exact hj))]
  refine ⟨hlenE, ?_, ?_⟩
  · intro j hj
    by_cases hjb : j < big.length
    · rw [hAC j hjb]
      have hj0 : j / G = 0 := Nat.div_eq_of_lt hj
      rw [if_pos (show 0 + j / G = 0 by omega), ← hkey j hjb]
    · rw [List.getD_eq_default _ _ (by omega : big.length ≤ j),
        List.getD_eq_default _ _ (by rw [hlenE]; omega)]
  · intro j hjG hjb
    rw [hAC j hjb]
    have hj1 : 1 ≤ j / G := (Nat.le_div_iff_mul_le (by omega)).mpr (by omega)
    rw [if_neg (by omega)]
    have hchunk : ((chunksW G big).getD (j / G) []).length = G := by
      refine huni _ (getD_mem [] _ _ ?_)
      rw [hcount]
      exact (Nat.div_lt_iff_lt_mul (by omega)).mpr (by rw [← hlen]; exact hjb)
    rw [getD_map_of_lt _ z z _ (j % G) (by rw [hchunk]; exact Nat.mod_lt _ (by omega)),
      ← hkey j hjb]
    have h01 : 0 + j / G - 1 = j / G - 1 := by omega
    rw [h01]

theorem claim_C2_witness :
    (1 : Nat) ≤ 2 ∧ ([1, 2, 3, 4] : List Nat).length = 2 * 2 ∧
    (expandKernel 2 (· + ·) 0 [1, 2, 3, 4] [10, 99]).getD 3 0 =
      ([1, 2, 3, 4] : List Nat).getD 3 0 + ([10, 99] : List Nat).getD (3 / 2 - 1) 0 :=
  ⟨by decide, by decide,
    (claim_C2 (· + ·) 0 2 2 [1, 2, 3, 4] [10, 99] (by decide) (by decide)).2.2 3
      (by decide) (by decide)⟩

/-- Claim C3: for `Range ≤ warp_size`, `inclusive_scan_over_group` overwrites
the `Range` accessor entries with the sequential inclusive scan of exactly the
first `Range` elements; the padding value `z` used for lanes `≥ Range` (the
warp round-up) never influences any in-range result — the right-hand side does
not mention `z`, and no property of `op` or `z` is assumed. -/
theorem claim_C3 (op : α → α → α) (z : α) (w : Nat) (xs : List α) (h : xs.length ≤ w) :
    inclusive_scan_over_group op z w xs = seqScan op xs :=
  iscog_base op z w xs h

theorem claim_C3_witness :
    ([9, 3, 2] : List Nat).length ≤ 4 ∧
    inclusive_scan_over_group (fun a b => a - b) 5 4 [9, 3, 2] =
      seqScan (fun a b => a - b) [9, 3, 2] :=
  ⟨by decide, claim_C3 (fun a b => a - b) 5 4 [9, 3, 2] (by decide)⟩

/-- Claim C4: `distribute_for` on a `known_size_group` of `LocalSize` lanes
visits every logical index in `[0, range)` exactly once and never an index
`≥ range`: lane `t` executes exactly the indices `j < range` with
`j % LocalSize = t` (its full iterations `t, t + LocalSize, …` plus the
partial iteration when `t < range % LocalSize`), each exactly once. -/
theorem claim_C4 (L R : Nat) (hL : 0 < L) :
    (∀ t, t < L → ∀ j, j ∈ distribute_for_items L R t ↔ (j < R ∧ j % L = t)) ∧
    (∀ t, (distribute_for_items L R t).Nodup) :=
  ⟨fun t ht j => distribute_for_covers_mem hL t ht j,
   fun t => distribute_for_nodup hL t⟩

theorem claim_C4_witness :
    (0 : Nat) < 4 ∧ (6 ∈ distribute_for_items 4 10 2 ↔ (6 < 10 ∧ 6 % 4 = 2)) ∧
    (distribute_for_items 4 10 1).Nodup :=
  ⟨by decide, (claim_C4 4 10 (by decide)).1 2 (by decide) 6,
    (claim_C4 4 10 (by decide)).2 1⟩

/-- Claim C5: for `N` a multiple of `G`, the allocator chain has, at level `k`,
exactly `ceil(m_k, G)` elements, where `m_0 = div_ceil(N, G)` and
`m_{k+1} = div_ceil(m_k, G)` are the spec's unrounded counts; every level
before the last has unrounded count `> 1`, the last level's unrounded count is
exactly `1`, and the chain is empty exactly when `N ≤ 1`. -/
theorem claim_C5 (G N : Nat) (hG : 2 ≤ G) (_hdvd : G ∣ N) :
    (∀ k, k < (hierarchical_inclusive_scan_allocate G N).length →
      (hierarchical_inclusive_scan_allocate G N).getD k 0 =
        ceil (specUnroundedCount G N k) G) ∧
    (∀ k, k + 1 < (hierarchical_inclusive_scan_allocate G N).length →
      1 < specUnroundedCount G N k) ∧
    (hierarchical_inclusive_scan_allocate G N ≠ [] →
      specUnroundedCount G N ((hierarchical_inclusive_scan_allocate G N).length - 1) = 1) ∧
    (hierarchical_inclusive_scan_allocate G N = [] ↔ N ≤ 1) :=
  ⟨fun k hk => alloc_getD hG N N k le_rfl hk,
   fun k hk => alloc_mid_gt_one hG N N k le_rfl hk,
   fun hne => alloc_last_one hG N N le_rfl hne,
   alloc_eq_nil_iff hG N⟩

theorem claim_C5_witness :
    (2 : Nat) ≤ 4 ∧ (4 : Nat) ∣ 64 ∧
    (hierarchical_inclusive_scan_allocate 4 64).getD 1 0 =
      ceil (specUnroundedCount 4 64 1) 4 ∧
    specUnroundedCount 4 64 ((hierarchical_inclusive_scan_allocate 4 64).length - 1) = 1 :=
  ⟨by decide, by decide,
    (claim_C5 4 64 (by decide) (by decide)).1 1 (by decide),
    (claim_C5 4 64 (by decide) (by decide)).2.2.1 (by decide)⟩

/-- Claim C6, counterexample: for an array whose element count equals the
granularity (here G = 4, N = 4), the allocator does NOT return an empty
intermediate-buffer chain — the while-loop body runs once (`n_elems` becomes
`div_ceil(4, 4) = 1`) and pushes one buffer of `ceil(1, 4) = 4` elements. -/
theorem claim_C6_counterexample : hierarchical_inclusive_scan_allocate 4 4 ≠ [] := by
  decide

/-- Claim C6 (amended: for `N = G` the chain has exactly ONE intermediate
buffer, of `G` elements — not zero; the subsequent scan nevertheless produces
the inclusive scan of the single block, the expansion loop running zero
kernels). -/
theorem claim_C6 (op : α → α → α) (z : α) (G w : Nat) (hG : 2 ≤ G) (hw : 2 ≤ w)
    (hassoc : ∀ a b c, op (op a b) c = op a (op b c))
    (hcomm : ∀ a b, op a b = op b a)
    (hrid : ∀ a, op a z = a) (inOut s : List α)
    (hio : inOut.length = G) (hsl : s.length = G) :
    hierarchical_inclusive_scan_allocate G G = [G] ∧
    hierarchical_inclusive_scan G w op z inOut [s] = seqScan op inOut := by
  have hone : ceil 1 G = G := by
    unfold ceil div_ceil
    have h1 : 1 + G - 1 = G := by omega
    rw [h1, Nat.div_self (by omega), Nat.one_mul]
  have halloc : hierarchical_inclusive_scan_allocate G G = [G] := by
    rw [alloc_cons hG G hG, div_ceil_eq_div (by omega) dvd_rfl, Nat.div_self (by omega),
      (alloc_eq_nil_iff hG 1).mpr (by omega), hone]
  refine ⟨halloc, ?_⟩
  refine hscan_correct op z hG hw hassoc hcomm hrid [s] inOut (by rw [hio]) ?_
  simp [hio, hsl, halloc]

theorem claim_C6_witness :
    (2 : Nat) ≤ 4 ∧ ([1, 2, 3, 4] : List Nat).length = 4 ∧
    hierarchical_inclusive_scan_allocate 4 4 = [4] ∧
    hierarchical_inclusive_scan 4 2 (· + ·) 0 [1, 2, 3, 4] [[9, 9, 9, 9]] =
      seqScan (· + ·) [1, 2, 3, 4] :=
  ⟨by decide, by decide,
    (claim_C6 (· + ·) 0 4 2 (by decide) (by decide) Nat.add_assoc Nat.add_comm Nat.add_zero
      [1, 2, 3, 4] [9, 9, 9, 9] (by decide) (by decide)).1,
    (claim_C6 (· + ·) 0 4 2 (by decide) (by decide) Nat.add_assoc Nat.add_comm Nat.add_zero
      [1, 2, 3, 4] [9, 9, 9, 9] (by decide) (by decide)).2⟩

/-- Claim C7: `inclusive_scan_local_allocation` is empty for
`Range ≤ warp_size`; otherwise it consists of an array of exactly
`div_ceil(Range, warp_size)` elements plus the nested allocation for that
reduced size; the terminal nesting level always has size at most
`warp_size`. -/
theorem claim_C7 (w range : Nat) (hw : 2 ≤ w) :
    (range ≤ w → inclusive_scan_local_allocation w range = []) ∧
    (w < range → inclusive_scan_local_allocation w range =
      div_ceil range w :: inclusive_scan_local_allocation w (div_ceil range w)) ∧
    (inclusive_scan_local_allocation w range).getLastD 0 ≤ w :=
  ⟨fun h => scratch_base h, fun h => scratch_rec hw h, scratch_last hw range range le_rfl⟩

theorem claim_C7_witness :
    (2 : Nat) ≤ 4 ∧
    inclusive_scan_local_allocation 4 20 =
      div_ceil 20 4 :: inclusive_scan_local_allocation 4 (div_ceil 20 4) ∧
    (inclusive_scan_local_allocation 4 20).getLastD 0 ≤ 4 :=
  ⟨by decide, (claim_C7 4 20 (by decide)).2.1 (by decide), (claim_C7 4 20 (by decide)).2.2⟩

/-- Claim C8: `submit_and_profile` in every mode submits the given work unit
exactly once, unaltered, and returns the queue's own submission result; when
`verbose()` is false or the queue lacks profiling support, any number of
submissions produce zero diagnostic lines. -/
theorem claim_C8 (q : ProfiledQueue γ ε) :
    (∀ label cgf, (submit_and_profile q label cgf).1 = q.submitFn cgf ∧
      (submit_and_profile q label cgf).2.submitted = q.submitted ++ [cgf] ∧
      (submit_and_profile q label cgf).2.submitFn = q.submitFn) ∧
    ((q.verbose = false ∨ q.profiling = false) → ∀ ws,
      (submit_all q ws).diagnosticLines = q.diagnosticLines ∧
      (submit_all q ws).submitted = q.submitted ++ ws) := by
  refine ⟨?_, fun hmode ws => submit_all_spec ws q hmode⟩
  intro label cgf
  unfold submit_and_profile
  by_cases h : q.verbose && q.profiling <;> simp [h]

theorem claim_C8_witness :
    (submit_all (ProfiledQueue.mk false true (fun n : Nat => n) [] 0) [1, 2, 3]).diagnosticLines
        = 0 ∧
    (submit_and_profile (ProfiledQueue.mk false true (fun n : Nat => n) [] 0) 0 5).1 = 5 :=
  ⟨((claim_C8 (ProfiledQueue.mk false true (fun n : Nat => n) [] 0)).2
      (Or.inl rfl) [1, 2, 3]).1,
    ((claim_C8 (ProfiledQueue.mk false true (fun n : Nat => n) [] 0)).1 0 5).1⟩

/-- Claim C9: for a chain produced for an in/out buffer whose size is a
multiple of `G`, every buffer access of the reduction and expansion kernels is
in bounds: each level's size is a multiple of `G`; the reduction's `size/G`
groups access `big[g*G + j]` (`j < G`, including the `big[G-1]` re-read) within
`big` and write `small[g]` within `small`; the expansion's `size/G - 1` groups
access the shifted block `big[(g+1)*G + j]` within `big` and read the carry
`small[g]` within `small`. -/
theorem claim_C9 (G N : Nat) (hG : 2 ≤ G) (hdvd : G ∣ N) (i : Nat)
    (hi : i + 1 < (scan_level_sizes G N).length) :
    G ∣ (scan_level_sizes G N).getD i 0 ∧
    (∀ g j, g < (scan_level_sizes G N).getD i 0 / G → j < G →
      g * G + j < (scan_level_sizes G N).getD i 0 ∧
      g < (scan_level_sizes G N).getD (i + 1) 0) ∧
    (∀ g j, g < (scan_level_sizes G N).getD i 0 / G - 1 → j < G →
      (g + 1) * G + j < (scan_level_sizes G N).getD i 0 ∧
      g < (scan_level_sizes G N).getD (i + 1) 0) := by
  obtain ⟨hdvdB, hstep⟩ := scan_level_sizes_step hG hdvd i hi
  have hBG : (scan_level_sizes G N).getD i 0 / G * G = (scan_level_sizes G N).getD i 0 :=
    Nat.div_mul_cancel hdvdB
  refine ⟨hdvdB, ?_, ?_⟩
  · intro g j hg hj
    have h1 : (g + 1) * G ≤ (scan_level_sizes G N).getD i 0 / G * G :=
      Nat.mul_le_mul_right G (by omega)
    have h2 : (g + 1) * G = g * G + G := by ring
    exact ⟨by omega, by omega⟩
  · intro g j hg hj
    have h1 : (g + 2) * G ≤ (scan_level_sizes G N).getD i 0 / G * G :=
      Nat.mul_le_mul_right G (by omega)
    have h2 : (g + 2) * G = (g + 1) * G + G := by ring
    exact ⟨by omega, by omega⟩

theorem claim_C9_witness :
    (2 : Nat) ≤ 4 ∧ (4 : Nat) ∣ 64 ∧ 0 + 1 < (scan_level_sizes 4 64).length ∧
    (4 ∣ (scan_level_sizes 4 64).getD 0 0) ∧
    (3 * 4 + 3 < (scan_level_sizes 4 64).getD 0 0 ∧ 3 < (scan_level_sizes 4 64).getD 1 0) :=
  ⟨by decide, by decide, by decide,
    (claim_C9 4 64 (by decide) (by decide) 0 (by decide)).1,
    (claim_C9 4 64 (by decide) (by decide) 0 (by decide)).2.1 3 3 (by decide) (by decide)⟩

/-- Claim C10: `measure_duration` applied to an empty vector of events reports
start `UINT64_MAX` (the `earliest_event_start` fold seed), end `0` (the
`latest_event_end` fold seed), and the unsigned 64-bit subtraction
`end - start` wraps modulo `2^64` to a duration of exactly 1 nanosecond. -/
theorem claim_C10 : measure_duration [] = (UINT64_MAX, 0, 1) := by decide

end NdzipSycl
